import Mathlib

/-!
Shallow embedding of the conversation-history core of the repository
(`src/history.py` and `src/agent.py`), together with proofs checking the
natural-language specification against it.

The in-memory store `HistoryManager._history : Dict[str, List[dict]]` is
modelled as an insertion-ordered association list (Python dicts iterate in
insertion order and cannot hold duplicate keys; theorems that depend on key
uniqueness carry it as an explicit `Nodup` hypothesis).  Machine- and
I/O-level aspects are modelled explicitly where a claim is about them: the
text `json.dumps(..., indent=2)` writes (for the encoding claims) and the
parsed content of the history file (for the load/save claims).
-/

namespace Context7

/-- A single conversation turn as built by `HistoryManager.add_message`
(history.py:47-51): a dict with exactly the keys `role`, `content`,
`timestamp`, all strings. -/
structure Turn where
  role : String
  content : String
  timestamp : String
deriving DecidableEq

/-- The store `HistoryManager._history`: conversation id to ordered turn
list, in insertion order. -/
abbrev Store := List (String × List Turn)

/-- Python `conversation_id in self._history`. -/
def storeContains (st : Store) (cid : String) : Bool :=
  st.any (fun p => p.1 == cid)

/-- Python `self._history.get(cid)`: the (unique, for a dict-shaped store)
entry for `cid`, if any. -/
def storeGet (st : Store) (cid : String) : Option (List Turn) :=
  (st.find? (fun p => p.1 == cid)).map Prod.snd

/-- Python `self._history.get(cid, [])`, and `self._history[cid]` where the
key is known to be present. -/
def storeGetD (st : Store) (cid : String) : List Turn :=
  (storeGet st cid).getD []

/-- Python `self._history[cid] = msgs`: dict assignment replaces the value
in place if the key exists (keeping its position), otherwise appends a new
entry at the end. -/
def storeSet (st : Store) (cid : String) (msgs : List Turn) : Store :=
  if storeContains st cid then
    st.map (fun p => if p.1 == cid then (cid, msgs) else p)
  else
    st ++ [(cid, msgs)]

/-- Python list slicing `l[a:]` for an arbitrary integer start index `a`
(as in `self._history[cid][-self.max_history:]`, history.py:54): a negative
start counts from the end of the list, clamped at 0; a nonnegative start is
clamped at `len(l)`. In particular `a = -0 = 0` keeps the whole list. -/
def pySliceFrom (a : Int) (l : List α) : List α :=
  if a < 0 then l.drop ((l.length + a).toNat) else l.drop (min a.toNat l.length)

/-- `HistoryManager.add_message(conversation_id, role, content)`
(history.py:42-56), acting on the store.  `maxHistory` is
`config.max_history` (a Python `int`, default 50); `timestamp` stands for
the value of `datetime.now().isoformat()` taken at the call.  The final
`await self.save()` is modelled at the manager level (`mAddMessage`). -/
def addMessage (maxHistory : Int) (st : Store) (cid role content timestamp : String) : Store :=
  let st1 := if storeContains st cid then st else st ++ [(cid, [])]
  let msgs := storeGetD st1 cid ++ [⟨role, content, timestamp⟩]
  let msgs2 := if (msgs.length : Int) > maxHistory then pySliceFrom (-maxHistory) msgs else msgs
  storeSet st1 cid msgs2

/-- A sequence of `add_message` calls for one conversation, oldest first;
each turn supplies its own clock value. -/
def addMessages (maxHistory : Int) (st : Store) (cid : String) (ts : List Turn) : Store :=
  ts.foldl (fun s t => addMessage maxHistory s cid t.role t.content t.timestamp) st

/-- `HistoryManager.get_messages` (history.py:58-61): role/content
projections of the conversation, in order; empty for a missing id. -/
def getMessages (st : Store) (cid : String) : List (String × String) :=
  (storeGetD st cid).map (fun m => (m.role, m.content))

/-- `HistoryManager.clear(conversation_id=None)` (history.py:76-82), store
part.  Python: `if conversation_id and conversation_id in self._history:
del self._history[conversation_id]` / `elif conversation_id is None:
self._history.clear()`.  Note the truthiness test: the argument `""` is
falsy and is not `None`, so `some ""` falls through both branches.  `del`
removes the (unique) entry for the key; on a dict-shaped store this is
`List.filter`. -/
def clearStore (st : Store) (cid : Option String) : Store :=
  match cid with
  | some c => if c ≠ "" ∧ storeContains st c then st.filter (fun p => p.1 != c) else st
  | none => []

/-- One element of the list returned by `HistoryManager.get_conversations`
(history.py:69-73). -/
structure ConvSummary where
  id : String
  last_message : String
  message_count : Nat
deriving DecidableEq

/-- The sort key `self._history.get(x["id"], [{}])[-1].get("timestamp", "")`
(history.py:74).  For an id bound to an empty list the Python expression
would index an empty list; that case is unreachable from
`get_conversations` (summaries are built only from non-empty lists of the
same dict) and is mapped to `""` here. -/
def lastTimestamp (st : Store) (cid : String) : String :=
  match storeGet st cid with
  | none => ""
  | some msgs =>
    match msgs.getLast? with
    | none => ""
    | some m => m.timestamp

/-- Python `messages[-1].get("content", "")` for a non-empty `messages`
(history.py:68). -/
def lastContent (msgs : List Turn) : String :=
  match msgs.getLast? with
  | none => ""
  | some m => m.content

/-- One summary dict (history.py:69-73): note the truncation expression
`last_message[:50] + "..." if len(last_message) > 50 else last_message`. -/
def summarize (p : String × List Turn) : ConvSummary :=
  let last_message := lastContent p.2
  ⟨p.1, if last_message.length > 50 then last_message.take 50 ++ "..." else last_message,
    p.2.length⟩

/-- `HistoryManager.get_conversations` (history.py:63-74).  Python
`sorted(..., key=..., reverse=True)` is a stable descending sort; it is
modelled by the stable `List.mergeSort` with `le a b := key b ≤ key a`,
which keeps equal-key elements in their original relative order exactly as
CPython's sort does. -/
def getConversations (st : Store) : List ConvSummary :=
  let conversations := (st.filter (fun p => !p.2.isEmpty)).map summarize
  conversations.mergeSort (fun a b => decide (lastTimestamp st b.id ≤ lastTimestamp st a.id))

/-- JSON values as far as the history file needs them: strings, arrays,
objects (in key insertion order).  The Python standard library's
`json.loads` is a faithful inverse of `json.dumps` on such values; the
character-level output of `json.dumps` is modelled separately (`savedJson`)
for the claims that are about the written text itself. -/
inductive JValue where
  | str : String → JValue
  | arr : List JValue → JValue
  | obj : List (String × JValue) → JValue

/-- The JSON value `json.dumps` serializes for one turn dict. -/
def encodeTurn (t : Turn) : JValue :=
  .obj [("role", .str t.role), ("content", .str t.content), ("timestamp", .str t.timestamp)]

/-- The JSON value `json.dumps` serializes for the whole store
(history.py:38). -/
def encodeStore (st : Store) : JValue :=
  .obj (st.map (fun p => (p.1, .arr (p.2.map encodeTurn))))

/-- Typing retraction used to state the save/load round trip at the level
of JSON values.  `load` performs no schema validation (it assigns whatever
`json.loads` returned to `self._history`); `none` marks values outside the
store shape, which the typed model cannot hold and no claim exercises. -/
def decodeTurn : JValue → Option Turn
  | .obj [("role", .str r), ("content", .str c), ("timestamp", .str ts)] => some ⟨r, c, ts⟩
  | _ => none

/-- Decode a JSON array of turn dicts. -/
def decodeTurnList : List JValue → Option (List Turn)
  | [] => some []
  | v :: vs =>
    match decodeTurn v, decodeTurnList vs with
    | some t, some ts => some (t :: ts)
    | _, _ => none

/-- Decode the entries of the top-level JSON object. -/
def decodeEntries : List (String × JValue) → Option Store
  | [] => some []
  | (k, .arr vs) :: rest =>
    match decodeTurnList vs, decodeEntries rest with
    | some ts, some st => some ((k, ts) :: st)
    | _, _ => none
  | _ => none

/-- Decode a store-shaped JSON value. -/
def decodeStore : JValue → Option Store
  | .obj entries => decodeEntries entries
  | _ => none

/-- The observable content of the history file, as `load` (history.py:21-31)
distinguishes it: the path does not exist; the file exists with empty
content; the file exists with non-empty content that `json.loads` rejects
(for example the eight characters `not json`); or the file exists with
content that parses to the JSON value `v`. -/
inductive FileContent where
  | missing : FileContent
  | emptyStr : FileContent
  | invalid : FileContent
  | json : JValue → FileContent

/-- `HistoryManager.load` (history.py:21-31) acting on the current in-memory
store `st` (`{}` for a fresh instance, set by `__init__`).  A missing path
or empty content leaves the store as it is; content rejected by
`json.loads` raises inside the `try`, the handler catches, prints a warning
and resets the store to `{}`; parsed content replaces the store wholesale.
The function never raises to its caller (the `except` clause swallows
everything).  The result is `none` only when the parsed value is not
store-shaped — Python would then hold a value outside this model's store
type; no claim exercises that case. -/
def loadStore : FileContent → Store → Option Store
  | .missing, st => some st
  | .emptyStr, st => some st
  | .invalid, _ => some []
  | .json v, _ => decodeStore v

/-- `load()` called on a fresh `HistoryManager`, whose `__init__` sets
`self._history = {}`. -/
def loadFresh (f : FileContent) : Option Store :=
  loadStore f []

/-- A `HistoryManager` as far as persistence is observable: the in-memory
store and the (parsed) content of the history file. -/
structure Manager where
  store : Store
  file : FileContent

/-- `HistoryManager.save` (history.py:33-40) at the JSON-value level: the
file is opened with mode `w`, so afterwards it holds exactly the
serialization of the current store, whatever it held before. -/
def mSave (m : Manager) : Manager :=
  ⟨m.store, .json (encodeStore m.store)⟩

/-- `add_message` including its final `await self.save()`. -/
def mAddMessage (maxHistory : Int) (m : Manager) (cid role content timestamp : String) : Manager :=
  mSave ⟨addMessage maxHistory m.store cid role content timestamp, m.file⟩

/-- `clear` including its final `await self.save()`. -/
def mClear (m : Manager) (cid : Option String) : Manager :=
  mSave ⟨clearStore m.store cid, m.file⟩

/-- The tagged dict returned by `Context7Agent.chat` (agent.py:68 and
agent.py:72). -/
inductive ChatResult where
  | complete : String → ChatResult
  | error : String → ChatResult
deriving DecidableEq

/-- `Context7Agent.chat(message, conversation_id)` (agent.py:56-72).  The
external call `await self.agent.run(...)` is opaque to this repository; its
outcome is the `outcome` parameter: `Except.ok response` when it returns,
`Except.error e` when anything in the `try` block up to and including the
run raises.  On success the user and the assistant turn are appended in
that order, each `add_message` persisting; on failure control jumps to the
handler before any `add_message`, so the error dict is returned and the
manager is untouched. -/
def chat (outcome : Except String String) (maxHistory : Int) (m : Manager)
    (cid message ts1 ts2 : String) : ChatResult × Manager :=
  match outcome with
  | .ok response =>
    let m1 := mAddMessage maxHistory m cid "user" message ts1
    let m2 := mAddMessage maxHistory m1 cid "assistant" response ts2
    (.complete response, m2)
  | .error e => (.error e, m)

/-- Lowercase hexadecimal digit, as CPython's `json.dumps` emits inside
`\uXXXX` escapes. -/
def hexDigit (n : Nat) : Char :=
  if n < 10 then Char.ofNat (48 + n) else Char.ofNat (87 + n)

/-- A `\uXXXX` escape for a code unit `n < 0x10000`. -/
def uEscape (n : Nat) : List Char :=
  ['\\', 'u', hexDigit (n / 4096 % 16), hexDigit (n / 256 % 16),
    hexDigit (n / 16 % 16), hexDigit (n % 16)]

/-- How `json.dumps` with its default `ensure_ascii=True` renders one
character inside a JSON string literal: `"`, `\` and the common control
characters get their two-character escapes, any other character outside
printable ASCII (outside U+0020..U+007E) becomes a `\uXXXX` escape (a
surrogate pair above U+FFFF), and printable ASCII is emitted verbatim. -/
def escChar (c : Char) : List Char :=
  if c = '\"' then ['\\', '\"']
  else if c = '\\' then ['\\', '\\']
  else if c = '\n' then ['\\', 'n']
  else if c = '\t' then ['\\', 't']
  else if c = '\r' then ['\\', 'r']
  else if c = '\x08' then ['\\', 'b']
  else if c = '\x0c' then ['\\', 'f']
  else if c.toNat < 32 then uEscape c.toNat
  else if c.toNat < 127 then [c]
  else if c.toNat < 65536 then uEscape c.toNat
  else uEscape (55296 + (c.toNat - 65536) / 1024) ++ uEscape (56320 + (c.toNat - 65536) % 1024)

/-- A JSON string literal as `json.dumps` writes it. -/
def dumpString (s : String) : String :=
  "\"" ++ String.mk ((s.data.map escChar).flatten) ++ "\""

/-- An indentation prefix of `n` spaces. -/
def spaces (n : Nat) : String :=
  String.mk (List.replicate n ' ')

/-- Python `",\n".join`-style gluing: the separator `json.dumps` puts
between container items when `indent=2` is given. -/
def joinComma : List String → String
  | [] => ""
  | [x] => x
  | x :: xs => x ++ ",\n" ++ joinComma xs

/-- One turn dict as `json.dumps(..., indent=2)` prints it at indentation
`ind`.  The dicts built by `add_message` always hold exactly the keys
`role`, `content`, `timestamp` in this insertion order. -/
def dumpTurn (ind : Nat) (t : Turn) : String :=
  "\x7b\n"
    ++ spaces (ind + 2) ++ "\"role\": " ++ dumpString t.role ++ ",\n"
    ++ spaces (ind + 2) ++ "\"content\": " ++ dumpString t.content ++ ",\n"
    ++ spaces (ind + 2) ++ "\"timestamp\": " ++ dumpString t.timestamp ++ "\n"
    ++ spaces ind ++ "\x7d"

/-- A turn list as `json.dumps(..., indent=2)` prints it at indentation
`ind` (an empty array stays inline as `[]`). -/
def dumpTurnList (ind : Nat) (ts : List Turn) : String :=
  if ts.isEmpty then "[]"
  else
    "[\n" ++ joinComma (ts.map (fun t => spaces (ind + 2) ++ dumpTurn (ind + 2) t))
      ++ "\n" ++ spaces ind ++ "]"

/-- The exact text `save` (history.py:38) writes:
`json.dumps(self._history, indent=2)` — with the default
`ensure_ascii=True`, since no `ensure_ascii` argument is passed.  The file
is opened with mode `w`, so this text replaces any previous content. -/
def savedJson (st : Store) : String :=
  if st.isEmpty then "\x7b\x7d"
  else
    "\x7b\n"
      ++ joinComma (st.map (fun p => spaces 2 ++ dumpString p.1 ++ ": " ++ dumpTurnList 2 p.2))
      ++ "\n\x7d"

/-- Every character of the string is ASCII. -/
def asciiOnly (s : String) : Bool :=
  s.data.all (fun c => c.toNat ≤ 127)

/-- The effect of the slice `msgs[-N:]` for a positive bound `N`: keep the
last `N` elements. -/
def lastK (N : Nat) (xs : List α) : List α :=
  xs.drop (xs.length - N)

/-! Helper lemmas about the store operations. -/

theorem find?_map_replace (st : Store) (cid : String) (msgs : List Turn) (q : String × List Turn)
    (h : st.find? (fun p => p.1 == cid) = some q) :
    ((st.map (fun p => if p.1 == cid then (cid, msgs) else p)).find? (fun p => p.1 == cid))
      = some (cid, msgs) := by
  induction st with
  | nil => simp at h
  | cons x rest ih =>
    by_cases hx : x.1 = cid
    · simp [List.find?_cons, hx]
    · rw [List.find?_cons_of_neg] at h
      · simp only [List.map_cons]
        rw [if_neg (by simp [hx]), List.find?_cons_of_neg _ (by simp [hx])]
        exact ih h
      · simp [hx]

theorem storeContains_eq_isSome (st : Store) (cid : String) :
    storeContains st cid = (st.find? (fun p => p.1 == cid)).isSome := by
  induction st with
  | nil => rfl
  | cons x rest ih =>
    simp only [storeContains, List.any_cons, List.find?_cons] at *
    cases hx : (x.1 == cid) with
    | true => simp
    | false => simpa [storeContains] using ih

theorem storeGetD_storeSet_self (st : Store) (cid : String) (msgs : List Turn) :
    storeGetD (storeSet st cid msgs) cid = msgs := by
  unfold storeSet
  by_cases h : storeContains st cid
  · rw [if_pos h]
    rw [storeContains_eq_isSome] at h
    obtain ⟨q, hq⟩ := Option.isSome_iff_exists.mp h
    rw [storeGetD, storeGet, find?_map_replace st cid msgs q hq]
    rfl
  · rw [if_neg h]
    rw [storeContains_eq_isSome] at h
    have hn : st.find? (fun p => p.1 == cid) = none := by
      cases hfind : st.find? (fun p => p.1 == cid) <;> simp [hfind] at h ⊢
    rw [storeGetD, storeGet, List.find?_append, hn]
    simp

theorem storeGetD_ensure (st : Store) (cid : String) :
    storeGetD (if storeContains st cid then st else st ++ [(cid, [])]) cid
      = storeGetD st cid := by
  by_cases h : storeContains st cid
  · rw [if_pos h]
  · rw [if_neg h]
    rw [storeContains_eq_isSome] at h
    have hn : st.find? (fun p => p.1 == cid) = none := by
      cases hfind : st.find? (fun p => p.1 == cid) <;> simp [hfind] at h ⊢
    simp [storeGetD, storeGet, List.find?_append, hn]

theorem pySliceFrom_neg (N : Nat) (h : 1 ≤ N) (l : List α) :
    pySliceFrom (-(N : Int)) l = lastK N l := by
  rw [pySliceFrom, lastK, if_pos (by omega)]
  congr 1
  omega

theorem storeGetD_addMessage (N : Nat) (hN : 1 ≤ N) (st : Store) (cid role content ts : String) :
    storeGetD (addMessage (N : Int) st cid role content ts) cid
      = lastK N (storeGetD st cid ++ [⟨role, content, ts⟩]) := by
  unfold addMessage
  rw [storeGetD_storeSet_self, storeGetD_ensure]
  set msgs := storeGetD st cid ++ [(⟨role, content, ts⟩ : Turn)] with hmsgs
  by_cases hlen : (msgs.length : Int) > (N : Int)
  · rw [if_pos hlen, pySliceFrom_neg N hN]
  · rw [if_neg hlen, lastK]
    have : msgs.length - N = 0 := by omega
    rw [this, List.drop_zero]

theorem lastK_append_lastK (N : Nat) (xs ys : List α) :
    lastK N (lastK N xs ++ ys) = lastK N (xs ++ ys) := by
  rw [lastK, lastK, lastK]
  rw [← List.drop_append_of_le_length (by omega : xs.length - N ≤ xs.length)]
  rw [List.drop_drop]
  congr 1
  simp [List.length_drop, List.length_append]
  omega

theorem storeGetD_addMessages (N : Nat) (hN : 1 ≤ N) (cid : String) :
    ∀ (ts : List Turn) (st : Store), (storeGetD st cid).length ≤ N →
      storeGetD (addMessages (N : Int) st cid ts) cid = lastK N (storeGetD st cid ++ ts) := by
  intro ts
  induction ts with
  | nil =>
    intro st hst
    rw [addMessages, List.foldl_nil, lastK, List.append_nil]
    have : (storeGetD st cid).length - N = 0 := by omega
    rw [this, List.drop_zero]
  | cons t rest ih =>
    intro st hst
    have hstep : addMessages (N : Int) st cid (t :: rest)
        = addMessages (N : Int) (addMessage (N : Int) st cid t.role t.content t.timestamp) cid rest :=
      rfl
    rw [hstep]
    have hconv : storeGetD (addMessage (N : Int) st cid t.role t.content t.timestamp) cid
        = lastK N (storeGetD st cid ++ [t]) := by
      rw [storeGetD_addMessage N hN]
    have hlen : (storeGetD (addMessage (N : Int) st cid t.role t.content t.timestamp) cid).length
        ≤ N := by
      rw [hconv, lastK, List.length_drop]
      omega
    rw [ih _ hlen, hconv, lastK_append_lastK]
    congr 1
    simp

theorem addMessage_neg_empty (mh : Int) (hmh : mh ≤ -1) (st : Store)
    (cid role content ts : String) (h0 : storeGetD st cid = []) :
    storeGetD (addMessage mh st cid role content ts) cid = [] := by
  unfold addMessage
  rw [storeGetD_storeSet_self, storeGetD_ensure, h0, List.nil_append]
  rw [if_pos (by simp; omega)]
  rw [pySliceFrom, if_neg (by omega)]
  have h1 : min (-mh).toNat [(⟨role, content, ts⟩ : Turn)].length = 1 := by
    simp
    omega
  rw [h1]
  rfl

theorem addMessage_zero_keeps_all (st : Store) (cid role content ts : String) :
    storeGetD (addMessage 0 st cid role content ts) cid
      = storeGetD st cid ++ [⟨role, content, ts⟩] := by
  unfold addMessage
  rw [storeGetD_storeSet_self, storeGetD_ensure]
  rw [if_pos (by simp)]
  rw [pySliceFrom, if_neg (by omega)]
  simp

theorem find?_filter_self (st : Store) (c : String) :
    (st.filter (fun p => p.1 != c)).find? (fun p => p.1 == c) = none := by
  rw [List.find?_eq_none]
  intro x hx
  have h2 := (List.mem_filter.mp hx).2
  simp at h2 ⊢
  exact h2

theorem find?_filter_other (st : Store) (c cid : String) (h : c ≠ cid) :
    (st.filter (fun p => p.1 != cid)).find? (fun p => p.1 == c)
      = st.find? (fun p => p.1 == c) := by
  induction st with
  | nil => rfl
  | cons x rest ih =>
    simp only [List.filter_cons]
    by_cases hxc : x.1 = cid
    · have hbne : (x.1 != cid) = false := by simp [hxc]
      have hne : (x.1 == c) = false := by
        simp [hxc]
        exact fun he => h he.symm
      simp only [hbne, Bool.false_eq_true, if_false]
      rw [List.find?_cons_of_neg _ (by simp [hne])]
      exact ih
    · have hbne : (x.1 != cid) = true := by simp [hxc]
      simp only [hbne, if_true]
      simp only [List.find?_cons]
      cases hxe : (x.1 == c) with
      | true => rfl
      | false => exact ih

theorem decodeTurn_encodeTurn (t : Turn) : decodeTurn (encodeTurn t) = some t := rfl

theorem decodeTurnList_encode (ts : List Turn) :
    decodeTurnList (ts.map encodeTurn) = some ts := by
  induction ts with
  | nil => rfl
  | cons t rest ih => simp [decodeTurnList, decodeTurn_encodeTurn, ih]

theorem decodeEntries_encode (st : Store) :
    decodeEntries (st.map (fun p => (p.1, .arr (p.2.map encodeTurn)))) = some st := by
  induction st with
  | nil => rfl
  | cons p rest ih => simp [decodeEntries, decodeTurnList_encode, ih]

theorem decodeStore_encodeStore (st : Store) : decodeStore (encodeStore st) = some st := by
  rw [encodeStore, decodeStore]
  exact decodeEntries_encode st

theorem storeGet_mem_nodup (st : Store) (h : (st.map Prod.fst).Nodup) (k : String)
    (v : List Turn) (hm : (k, v) ∈ st) : storeGet st k = some v := by
  induction st with
  | nil => cases hm
  | cons p rest ih =>
    rw [List.map_cons, List.nodup_cons] at h
    rcases List.mem_cons.mp hm with heq | hm'
    · rw [storeGet, ← heq, List.find?_cons_of_pos _ (by simp)]
      rfl
    · have hne : p.1 ≠ k := by
        intro he
        exact h.1 (he ▸ List.mem_map.mpr ⟨(k, v), hm', rfl⟩)
      rw [storeGet, List.find?_cons_of_neg _ (by simp [hne])]
      exact ih h.2 hm'

/-! Helper lemmas about the characters `json.dumps` emits. -/

theorem hexDigit_ascii (n : Nat) (h : n < 16) : (hexDigit n).toNat ≤ 127 := by
  interval_cases n <;> decide

theorem uEscape_ascii (n : Nat) : ∀ c ∈ uEscape n, c.toNat ≤ 127 := by
  intro c hc
  simp only [uEscape, List.mem_cons, List.not_mem_nil, or_false] at hc
  rcases hc with rfl | rfl | rfl | rfl | rfl | rfl
  · decide
  · decide
  · exact hexDigit_ascii _ (Nat.mod_lt _ (by norm_num))
  · exact hexDigit_ascii _ (Nat.mod_lt _ (by norm_num))
  · exact hexDigit_ascii _ (Nat.mod_lt _ (by norm_num))
  · exact hexDigit_ascii _ (Nat.mod_lt _ (by norm_num))

theorem escChar_ascii (c : Char) : ∀ d ∈ escChar c, d.toNat ≤ 127 := by
  intro d hd
  rw [escChar] at hd
  by_cases h1 : c = '\"'
  · rw [if_pos h1] at hd
    rcases List.mem_cons.mp hd with rfl | hd'
    · decide
    · rcases List.mem_cons.mp hd' with rfl | hd'' <;> first | decide | cases hd''
  · rw [if_neg h1] at hd
    by_cases h2 : c = '\\'
    · rw [if_pos h2] at hd
      rcases List.mem_cons.mp hd with rfl | hd'
      · decide
      · rcases List.mem_cons.mp hd' with rfl | hd'' <;> first | decide | cases hd''
    · rw [if_neg h2] at hd
      by_cases h3 : c = '\n'
      · rw [if_pos h3] at hd
        rcases List.mem_cons.mp hd with rfl | hd'
        · decide
        · rcases List.mem_cons.mp hd' with rfl | hd'' <;> first | decide | cases hd''
      · rw [if_neg h3] at hd
        by_cases h4 : c = '\t'
        · rw [if_pos h4] at hd
          rcases List.mem_cons.mp hd with rfl | hd'
          · decide
          · rcases List.mem_cons.mp hd' with rfl | hd'' <;> first | decide | cases hd''
        · rw [if_neg h4] at hd
          by_cases h5 : c = '\r'
          · rw [if_pos h5] at hd
            rcases List.mem_cons.mp hd with rfl | hd'
            · decide
            · rcases List.mem_cons.mp hd' with rfl | hd'' <;> first | decide | cases hd''
          · rw [if_neg h5] at hd
            by_cases h6 : c = '\x08'
            · rw [if_pos h6] at hd
              rcases List.mem_cons.mp hd with rfl | hd'
              · decide
              · rcases List.mem_cons.mp hd' with rfl | hd'' <;> first | decide | cases hd''
            · rw [if_neg h6] at hd
              by_cases h7 : c = '\x0c'
              · rw [if_pos h7] at hd
                rcases List.mem_cons.mp hd with rfl | hd'
                · decide
                · rcases List.mem_cons.mp hd' with rfl | hd'' <;> first | decide | cases hd''
              · rw [if_neg h7] at hd
                by_cases h8 : c.toNat < 32
                · rw [if_pos h8] at hd
                  exact uEscape_ascii _ _ hd
                · rw [if_neg h8] at hd
                  by_cases h9 : c.toNat < 127
                  · rw [if_pos h9] at hd
                    rcases List.mem_cons.mp hd with rfl | hd'
                    · omega
                    · cases hd'
                  · rw [if_neg h9] at hd
                    by_cases h10 : c.toNat < 65536
                    · rw [if_pos h10] at hd
                      exact uEscape_ascii _ _ hd
                    · rw [if_neg h10] at hd
                      rcases List.mem_append.mp hd with hm | hm <;> exact uEscape_ascii _ _ hm

theorem asciiOnly_iff (s : String) : asciiOnly s = true ↔ ∀ c ∈ s.data, c.toNat ≤ 127 := by
  simp [asciiOnly, List.all_eq_true]

theorem asciiOnly_append (a b : String) :
    asciiOnly (a ++ b) = (asciiOnly a && asciiOnly b) := by
  simp [asciiOnly, String.data_append, List.all_append]

theorem dumpString_ascii (s : String) : asciiOnly (dumpString s) = true := by
  rw [asciiOnly_iff]
  intro c hc
  rw [dumpString] at hc
  simp only [String.data_append] at hc
  rcases List.mem_append.mp hc with hm | hm
  · rcases List.mem_append.mp hm with hm' | hm'
    · simp at hm'
      subst hm'
      decide
    · have : c ∈ (s.data.map escChar).flatten := hm'
      obtain ⟨l, hl, hcl⟩ := List.mem_flatten.mp this
      obtain ⟨x, _, hx⟩ := List.mem_map.mp hl
      exact escChar_ascii x c (hx ▸ hcl)
  · simp at hm
    subst hm
    decide

theorem spaces_ascii (n : Nat) : asciiOnly (spaces n) = true := by
  rw [asciiOnly_iff]
  intro c hc
  simp only [spaces] at hc
  have := List.eq_of_mem_replicate hc
  subst this
  decide

theorem joinComma_ascii (l : List String) (h : ∀ x ∈ l, asciiOnly x = true) :
    asciiOnly (joinComma l) = true := by
  induction l with
  | nil => decide
  | cons x xs ih =>
    cases xs with
    | nil => exact h x (List.mem_singleton.mpr rfl)
    | cons y ys =>
      have hx := h x (List.mem_cons_self _ _)
      have hrest : asciiOnly (joinComma (y :: ys)) = true :=
        ih (fun z hz => h z (List.mem_cons_of_mem _ hz))
      show asciiOnly (x ++ ",\n" ++ joinComma (y :: ys)) = true
      rw [asciiOnly_append, asciiOnly_append, hx, hrest]
      decide

theorem dumpTurn_ascii (ind : Nat) (t : Turn) : asciiOnly (dumpTurn ind t) = true := by
  rw [dumpTurn]
  simp only [asciiOnly_append, spaces_ascii, dumpString_ascii, Bool.true_and, Bool.and_true]
  decide

theorem dumpTurnList_ascii (ind : Nat) (ts : List Turn) :
    asciiOnly (dumpTurnList ind ts) = true := by
  rw [dumpTurnList]
  by_cases he : ts.isEmpty
  · rw [if_pos he]
    decide
  · rw [if_neg he]
    have hj : asciiOnly
        (joinComma (ts.map (fun t => spaces (ind + 2) ++ dumpTurn (ind + 2) t))) = true := by
      apply joinComma_ascii
      intro x hx
      obtain ⟨t, _, ht⟩ := List.mem_map.mp hx
      rw [← ht, asciiOnly_append, spaces_ascii, dumpTurn_ascii]
      rfl
    simp only [asciiOnly_append, spaces_ascii, hj, Bool.true_and, Bool.and_true]
    decide

/-! The claims. -/

/-- C1: for a configured `max_history = N` with `N ≥ 1`, adding `N + k`
turns (`k ≥ 1`) to a conversation that starts empty leaves exactly the last
`N` appended turns, in original relative order — i.e. the result is
`ts.drop k`, the input sequence with its oldest `k` turns dropped. -/
theorem addMessage_fifo_bound (N k : Nat) (hN : 1 ≤ N) (hk : 1 ≤ k)
    (cid : String) (ts : List Turn) (hlen : ts.length = N + k)
    (st : Store) (h0 : storeGetD st cid = []) :
    storeGetD (addMessages (N : Int) st cid ts) cid = ts.drop k := by
  have h := storeGetD_addMessages N hN cid ts st (by rw [h0]; simp)
  rw [h0, List.nil_append] at h
  rw [h, lastK, hlen]
  congr 1
  omega

/-- Witness for C1: `max_history = 2`, three turns added, the first is
dropped and the last two remain in order. -/
theorem addMessage_fifo_bound_witness :
    storeGetD (addMessages ((2 : Nat) : Int) [] "c1"
        [⟨"user", "a", "t1"⟩, ⟨"assistant", "b", "t2"⟩, ⟨"user", "c", "t3"⟩]) "c1"
      = [⟨"assistant", "b", "t2"⟩, ⟨"user", "c", "t3"⟩] := by
  have h := addMessage_fifo_bound 2 1 (by decide) (by decide) "c1"
    [⟨"user", "a", "t1"⟩, ⟨"assistant", "b", "t2"⟩, ⟨"user", "c", "t3"⟩] (by decide) [] rfl
  rw [h]
  decide

/-- Counterexample to C2 as stated: with `max_history = 0` the conversation
is NOT empty after an add — Python's `lst[-0:]` is `lst[0:]`, the whole
list, so no truncation happens at all and a second add grows the list to
length 2. -/
theorem maxHistory_zero_not_empty_cex :
    storeGetD (addMessage 0 [] "c1" "user" "hi" "t0") "c1" ≠ [] ∧
    (storeGetD (addMessage 0 (addMessage 0 [] "c1" "user" "hi" "t0") "c1"
        "assistant" "yo" "t1") "c1").length = 2 := by
  decide

/-- C2 (amended): for `max_history ≤ -1` the slicing degrades to an
always-empty conversation (each add appends one turn and the slice drops
it); for `max_history = 0` the slice `[-0:]` keeps the entire list, so the
add appends without any truncation and the conversation grows without
bound. -/
theorem addMessage_nonpositive_maxHistory (mh : Int) (st : Store)
    (cid role content ts : String) :
    (mh ≤ -1 → storeGetD st cid = [] →
      storeGetD (addMessage mh st cid role content ts) cid = []) ∧
    (mh = 0 → storeGetD (addMessage mh st cid role content ts) cid
      = storeGetD st cid ++ [⟨role, content, ts⟩]) := by
  constructor
  · intro h1 h2
    exact addMessage_neg_empty mh h1 st cid role content ts h2
  · intro h
    subst h
    exact addMessage_zero_keeps_all st cid role content ts

/-- Witness for the amended C2 at `max_history = -1` and `max_history = 0`. -/
theorem addMessage_nonpositive_maxHistory_witness :
    storeGetD (addMessage (-1) [] "c1" "user" "hi" "t0") "c1" = [] ∧
    storeGetD (addMessage 0 [] "c2" "user" "hi" "t0") "c2"
      = storeGetD ([] : Store) "c2" ++ [⟨"user", "hi", "t0"⟩] :=
  ⟨(addMessage_nonpositive_maxHistory (-1) [] "c1" "user" "hi" "t0").1 (by decide) rfl,
   (addMessage_nonpositive_maxHistory 0 [] "c2" "user" "hi" "t0").2 rfl⟩

/-- C3: when the external agent call inside `chat` fails, `chat` returns
the error-tagged result and the manager — in-memory store and history file
alike — is exactly as it was before the call: control jumps to the
`except` handler before either `add_message` runs. -/
theorem chat_error_no_mutation (e : String) (mh : Int) (m : Manager)
    (cid message ts1 ts2 : String) :
    chat (Except.error e) mh m cid message ts1 ts2 = (ChatResult.error e, m) := rfl

/-- C4: `save()` followed by `load()` on a fresh `HistoryManager` over the
same file reproduces the in-memory mapping exactly — same ids in the same
order, same turns with the same role/content/timestamp values. -/
theorem save_load_roundtrip (st : Store) (f : FileContent) :
    loadFresh (mSave ⟨st, f⟩).file = some st :=
  decodeStore_encodeStore st

/-- C5: on a fresh instance, `load()` over a file whose content is not
valid JSON (such as the literal text `not json`), or whose content is
empty, completes without raising and leaves the in-memory store empty. -/
theorem load_invalid_or_empty :
    loadFresh FileContent.invalid = some [] ∧ loadFresh FileContent.emptyStr = some [] :=
  ⟨rfl, rfl⟩

/-- C6: `get_conversations()` returns exactly one summary per non-empty
conversation (a permutation of the summaries of the non-empty entries;
zero-turn conversations are omitted), sorted descending by the timestamp
string of each conversation's last turn, and each summary's
`message_count` equals that conversation's turn count. -/
theorem getConversations_summaries_sorted (st : Store) (h : (st.map Prod.fst).Nodup) :
    (getConversations st).Perm ((st.filter (fun p => !p.2.isEmpty)).map summarize) ∧
    (getConversations st).Pairwise
      (fun a b => lastTimestamp st b.id ≤ lastTimestamp st a.id) ∧
    ∀ s ∈ getConversations st,
      storeGetD st s.id ≠ [] ∧ s.message_count = (storeGetD st s.id).length := by
  refine ⟨List.mergeSort_perm _ _, ?_, ?_⟩
  · have htrans : ∀ (a b c : ConvSummary),
        decide (lastTimestamp st b.id ≤ lastTimestamp st a.id) = true →
        decide (lastTimestamp st c.id ≤ lastTimestamp st b.id) = true →
        decide (lastTimestamp st c.id ≤ lastTimestamp st a.id) = true := by
      intro a b c hab hbc
      rw [decide_eq_true_eq] at hab hbc ⊢
      exact le_trans hbc hab
    have htotal : ∀ (a b : ConvSummary),
        (decide (lastTimestamp st b.id ≤ lastTimestamp st a.id)
          || decide (lastTimestamp st a.id ≤ lastTimestamp st b.id)) = true := by
      intro a b
      rw [Bool.or_eq_true, decide_eq_true_eq, decide_eq_true_eq]
      exact le_total _ _
    have hp := List.sorted_mergeSort htrans htotal
      ((st.filter (fun p => !p.2.isEmpty)).map summarize)
    exact List.Pairwise.imp (fun hab => by simpa using hab) hp
  · intro s hs
    have hmem : s ∈ (st.filter (fun p => !p.2.isEmpty)).map summarize :=
      (List.mergeSort_perm _ _).mem_iff.mp hs
    obtain ⟨p, hpf, hps⟩ := List.mem_map.mp hmem
    obtain ⟨hpmem, hpne⟩ := List.mem_filter.mp hpf
    have hget : storeGet st p.1 = some p.2 := storeGet_mem_nodup st h p.1 p.2 hpmem
    have hid : s.id = p.1 := by rw [← hps]; rfl
    constructor
    · rw [hid, storeGetD, hget]
      simpa using hpne
    · rw [hid, storeGetD, hget, ← hps]
      rfl

/-- Witness for C6 at the spec's ordering scenario: `c1` holds two turns,
`c2` one newer turn. -/
theorem getConversations_summaries_sorted_witness :
    (([("c1", [(⟨"user", "a", "2024-01-01T00:00:00"⟩ : Turn),
        (⟨"assistant", "b", "2024-01-01T00:00:01"⟩ : Turn)]),
       ("c2", [(⟨"user", "c", "2024-01-01T00:00:02"⟩ : Turn)])].map Prod.fst).Nodup) ∧
    ((getConversations [("c1", [(⟨"user", "a", "2024-01-01T00:00:00"⟩ : Turn),
        (⟨"assistant", "b", "2024-01-01T00:00:01"⟩ : Turn)]),
       ("c2", [(⟨"user", "c", "2024-01-01T00:00:02"⟩ : Turn)])]).Perm
      (([("c1", [(⟨"user", "a", "2024-01-01T00:00:00"⟩ : Turn),
        (⟨"assistant", "b", "2024-01-01T00:00:01"⟩ : Turn)]),
       ("c2", [(⟨"user", "c", "2024-01-01T00:00:02"⟩ : Turn)])].filter
        (fun p => !p.2.isEmpty)).map summarize) ∧
      (getConversations [("c1", [(⟨"user", "a", "2024-01-01T00:00:00"⟩ : Turn),
        (⟨"assistant", "b", "2024-01-01T00:00:01"⟩ : Turn)]),
       ("c2", [(⟨"user", "c", "2024-01-01T00:00:02"⟩ : Turn)])]).Pairwise
        (fun a b =>
          lastTimestamp [("c1", [(⟨"user", "a", "2024-01-01T00:00:00"⟩ : Turn),
            (⟨"assistant", "b", "2024-01-01T00:00:01"⟩ : Turn)]),
           ("c2", [(⟨"user", "c", "2024-01-01T00:00:02"⟩ : Turn)])] b.id
          ≤ lastTimestamp [("c1", [(⟨"user", "a", "2024-01-01T00:00:00"⟩ : Turn),
            (⟨"assistant", "b", "2024-01-01T00:00:01"⟩ : Turn)]),
           ("c2", [(⟨"user", "c", "2024-01-01T00:00:02"⟩ : Turn)])] a.id) ∧
      ∀ s ∈ getConversations [("c1", [(⟨"user", "a", "2024-01-01T00:00:00"⟩ : Turn),
        (⟨"assistant", "b", "2024-01-01T00:00:01"⟩ : Turn)]),
       ("c2", [(⟨"user", "c", "2024-01-01T00:00:02"⟩ : Turn)])],
        storeGetD [("c1", [(⟨"user", "a", "2024-01-01T00:00:00"⟩ : Turn),
          (⟨"assistant", "b", "2024-01-01T00:00:01"⟩ : Turn)]),
         ("c2", [(⟨"user", "c", "2024-01-01T00:00:02"⟩ : Turn)])] s.id ≠ [] ∧
        s.message_count = (storeGetD [("c1", [(⟨"user", "a", "2024-01-01T00:00:00"⟩ : Turn),
          (⟨"assistant", "b", "2024-01-01T00:00:01"⟩ : Turn)]),
         ("c2", [(⟨"user", "c", "2024-01-01T00:00:02"⟩ : Turn)])] s.id).length) :=
  ⟨by decide, getConversations_summaries_sorted _ (by decide)⟩

set_option maxRecDepth 10000 in
/-- Counterexample to C7 as stated: for a 51-character last message the
code reports the first 50 characters plus `"..."` — 53 characters in
total — not the claimed first 47 characters plus `"..."` (total 50). -/
theorem summary_truncation_cex :
    (getConversations [("c1", [⟨"user", String.mk (List.replicate 51 'a'), "t"⟩])]).map
        (fun s => s.last_message)
      = [String.mk (List.replicate 50 'a') ++ "..."] ∧
    (String.mk (List.replicate 50 'a') ++ "...").length = 53 ∧
    String.mk (List.replicate 50 'a') ++ "..."
      ≠ (String.mk (List.replicate 51 'a')).take 47 ++ "..." := by
  refine ⟨?_, by decide, by decide⟩
  simp only [getConversations]
  have h1 : ([("c1", [(⟨"user", String.mk (List.replicate 51 'a'), "t"⟩ : Turn)])].filter
      (fun p => !p.2.isEmpty)).map summarize
      = [⟨"c1", String.mk (List.replicate 50 'a') ++ "...", 1⟩] := by decide
  rw [h1, List.mergeSort_singleton]
  decide

/-- C7 (amended): a last-turn content of at most 50 characters is reported
unmodified; a longer one is reported as its first 50 characters followed by
`"..."` (total length 53). -/
theorem getConversations_truncation (st : Store) (h : (st.map Prod.fst).Nodup) :
    ∀ s ∈ getConversations st,
      ((lastContent (storeGetD st s.id)).length ≤ 50 →
        s.last_message = lastContent (storeGetD st s.id)) ∧
      (50 < (lastContent (storeGetD st s.id)).length →
        s.last_message = (lastContent (storeGetD st s.id)).take 50 ++ "...") := by
  intro s hs
  have hmem : s ∈ (st.filter (fun p => !p.2.isEmpty)).map summarize :=
    (List.mergeSort_perm _ _).mem_iff.mp hs
  obtain ⟨p, hpf, hps⟩ := List.mem_map.mp hmem
  obtain ⟨hpmem, _⟩ := List.mem_filter.mp hpf
  have hget : storeGet st p.1 = some p.2 := storeGet_mem_nodup st h p.1 p.2 hpmem
  have hid : s.id = p.1 := by rw [← hps]; rfl
  have hgetd : storeGetD st s.id = p.2 := by
    rw [hid, storeGetD, hget]
    rfl
  have hmsg : s.last_message
      = (if (lastContent p.2).length > 50 then (lastContent p.2).take 50 ++ "..."
         else lastContent p.2) := by
    rw [← hps]
    rfl
  rw [hgetd]
  constructor
  · intro hle
    rw [hmsg, if_neg (by omega)]
  · intro hgt
    rw [hmsg, if_pos (by omega)]

/-- Witness for the amended C7 on a store with one 51-character and one
short last message. -/
theorem getConversations_truncation_witness :
    (([("c1", [(⟨"user", String.mk (List.replicate 51 'a'), "t1"⟩ : Turn)]),
       ("c2", [(⟨"user", "short", "t2"⟩ : Turn)])].map Prod.fst).Nodup) ∧
    (∀ s ∈ getConversations [("c1", [(⟨"user", String.mk (List.replicate 51 'a'), "t1"⟩ : Turn)]),
       ("c2", [(⟨"user", "short", "t2"⟩ : Turn)])],
      ((lastContent (storeGetD [("c1", [(⟨"user", String.mk (List.replicate 51 'a'), "t1"⟩ : Turn)]),
          ("c2", [(⟨"user", "short", "t2"⟩ : Turn)])] s.id)).length ≤ 50 →
        s.last_message
          = lastContent (storeGetD [("c1", [(⟨"user", String.mk (List.replicate 51 'a'), "t1"⟩ : Turn)]),
            ("c2", [(⟨"user", "short", "t2"⟩ : Turn)])] s.id)) ∧
      (50 < (lastContent (storeGetD [("c1", [(⟨"user", String.mk (List.replicate 51 'a'), "t1"⟩ : Turn)]),
          ("c2", [(⟨"user", "short", "t2"⟩ : Turn)])] s.id)).length →
        s.last_message
          = (lastContent (storeGetD [("c1", [(⟨"user", String.mk (List.replicate 51 'a'), "t1"⟩ : Turn)]),
            ("c2", [(⟨"user", "short", "t2"⟩ : Turn)])] s.id)).take 50 ++ "...")) :=
  ⟨by decide, getConversations_truncation _ (by decide)⟩

/-- Counterexample to C8 as stated: the empty string is a possible
conversation id (nothing stops `add_message("")`), yet `clear("")` does not
remove it — `""` is falsy, so `if conversation_id and ...` skips the
deletion and the store is returned unchanged. -/
theorem clear_empty_id_cex :
    storeContains [("", [(⟨"user", "hi", "t0"⟩ : Turn)])] "" = true ∧
    clearStore [("", [(⟨"user", "hi", "t0"⟩ : Turn)])] (some "")
      = [("", [(⟨"user", "hi", "t0"⟩ : Turn)])] := by
  constructor
  · decide
  · decide

/-- C8 (amended): for every NON-EMPTY conversation id, `clear(id)` removes
that conversation entirely, leaves every other id untouched, and is a
no-op when the id is absent; `clear("")` is a no-op by Python truthiness;
`clear()` with no argument removes all conversations; in each case the
result is persisted (the file holds the serialization of the new store). -/
theorem clear_removes_conversation (st : Store) (f : FileContent) (cid : String)
    (h : cid ≠ "") :
    storeGet (clearStore st (some cid)) cid = none ∧
    (∀ c, c ≠ cid → storeGet (clearStore st (some cid)) c = storeGet st c) ∧
    (storeContains st cid = false → clearStore st (some cid) = st) ∧
    clearStore st none = [] ∧
    (mClear ⟨st, f⟩ (some cid)).file
      = FileContent.json (encodeStore (clearStore st (some cid))) ∧
    (mClear ⟨st, f⟩ none).file = FileContent.json (encodeStore ([] : Store)) := by
  refine ⟨?_, ?_, ?_, rfl, rfl, rfl⟩
  · rw [clearStore]
    by_cases hc : storeContains st cid
    · rw [if_pos ⟨h, hc⟩, storeGet, find?_filter_self]
      rfl
    · rw [if_neg (fun hand => hc hand.2)]
      rw [storeContains_eq_isSome] at hc
      rw [storeGet]
      cases hfind : st.find? (fun p => p.1 == cid)
      · rfl
      · rw [hfind] at hc
        simp at hc
  · intro c hcne
    rw [clearStore]
    by_cases hc : storeContains st cid
    · rw [if_pos ⟨h, hc⟩, storeGet, storeGet, find?_filter_other st c cid hcne]
    · rw [if_neg (fun hand => hc hand.2)]
  · intro hfalse
    rw [clearStore, if_neg]
    intro hand
    rw [hfalse] at hand
    exact Bool.false_ne_true hand.2

/-- Witness for the amended C8: clearing `c1` removes it, keeps `c2`,
clearing a missing id is a no-op, clearing with no id empties the store,
and the file is persisted. -/
theorem clear_removes_conversation_witness :
    ("c1" : String) ≠ "" ∧
    storeGet (clearStore [("c1", [(⟨"user", "a", "t1"⟩ : Turn)]),
        ("c2", [(⟨"user", "b", "t2"⟩ : Turn)])] (some "c1")) "c1" = none ∧
    storeGet (clearStore [("c1", [(⟨"user", "a", "t1"⟩ : Turn)]),
        ("c2", [(⟨"user", "b", "t2"⟩ : Turn)])] (some "c1")) "c2"
      = storeGet [("c1", [(⟨"user", "a", "t1"⟩ : Turn)]),
        ("c2", [(⟨"user", "b", "t2"⟩ : Turn)])] "c2" ∧
    clearStore [("c1", [(⟨"user", "a", "t1"⟩ : Turn)]),
        ("c2", [(⟨"user", "b", "t2"⟩ : Turn)])] (some "missing-id")
      = [("c1", [(⟨"user", "a", "t1"⟩ : Turn)]), ("c2", [(⟨"user", "b", "t2"⟩ : Turn)])] ∧
    clearStore [("c1", [(⟨"user", "a", "t1"⟩ : Turn)]),
        ("c2", [(⟨"user", "b", "t2"⟩ : Turn)])] none = [] ∧
    (mClear ⟨[("c1", [(⟨"user", "a", "t1"⟩ : Turn)]), ("c2", [(⟨"user", "b", "t2"⟩ : Turn)])],
        FileContent.missing⟩ (some "c1")).file
      = FileContent.json (encodeStore (clearStore [("c1", [(⟨"user", "a", "t1"⟩ : Turn)]),
        ("c2", [(⟨"user", "b", "t2"⟩ : Turn)])] (some "c1"))) :=
  ⟨by decide,
   (clear_removes_conversation _ FileContent.missing "c1" (by decide)).1,
   (clear_removes_conversation _ FileContent.missing "c1" (by decide)).2.1 "c2" (by decide),
   (clear_removes_conversation _ FileContent.missing "missing-id" (by decide)).2.2.1 (by decide),
   (clear_removes_conversation _ FileContent.missing "c1" (by decide)).2.2.2.1,
   (clear_removes_conversation _ FileContent.missing "c1" (by decide)).2.2.2.2.1⟩

/-- Counterexample to C9 as stated: the mapping's content holds the
non-ASCII character `é`, but the text `save()` writes does not contain `é`
anywhere — `json.dumps` is called without `ensure_ascii=False`, so the
character is written as the escape `é`, not literally. -/
theorem save_nonascii_escaped_cex :
    ('é' ∈ ("é" : String).data) ∧
    ('é' ∉ (savedJson [("c1", [(⟨"user", "é", "2024"⟩ : Turn)])]).data) := by
  decide

/-- C9 (amended): `save()` writes the mapping as indented JSON whose every
character is ASCII — with `json.dumps`'s default `ensure_ascii=True`,
non-ASCII characters appear as `\uXXXX` escape sequences rather than
literally — and, the file being opened with mode `w`, the text replaces
any previous content. -/
theorem savedJson_ascii (st : Store) : asciiOnly (savedJson st) = true := by
  rw [savedJson]
  by_cases he : st.isEmpty
  · rw [if_pos he]
    decide
  · rw [if_neg he]
    have hj : asciiOnly (joinComma (st.map (fun p =>
        spaces 2 ++ dumpString p.1 ++ ": " ++ dumpTurnList 2 p.2))) = true := by
      apply joinComma_ascii
      intro x hx
      obtain ⟨p, _, hp⟩ := List.mem_map.mp hx
      rw [← hp]
      simp only [asciiOnly_append, spaces_ascii, dumpString_ascii, dumpTurnList_ascii,
        Bool.true_and, Bool.and_true]
      decide
    simp only [asciiOnly_append, hj, Bool.true_and, Bool.and_true]
    decide

/-- C10: `add_message` performs no role validation: for any role string
whatsoever (and any nonnegative `max_history`, per the configuration
contract) the call succeeds and the conversation's last turn carries the
given role verbatim. -/
theorem addMessage_role_unvalidated (mh : Int) (h : 0 ≤ mh) (st : Store)
    (cid role content ts : String) :
    (storeGetD (addMessage mh st cid role content ts) cid).getLast?
      = some ⟨role, content, ts⟩ := by
  unfold addMessage
  rw [storeGetD_storeSet_self, storeGetD_ensure]
  set msgs := storeGetD st cid ++ [(⟨role, content, ts⟩ : Turn)] with hmsgs
  have hlen : 1 ≤ msgs.length := by simp [hmsgs]
  by_cases hc : (msgs.length : Int) > mh
  · rw [if_pos hc, pySliceFrom]
    by_cases hneg : (-mh) < 0
    · rw [if_pos hneg]
      rw [List.getLast?_drop, if_neg (by omega)]
      simp [hmsgs]
    · rw [if_neg hneg]
      rw [List.getLast?_drop, if_neg (by omega)]
      simp [hmsgs]
  · rw [if_neg hc]
    simp [hmsgs]

/-- Witness for C10 at the default `max_history = 50` with the
out-of-vocabulary role `"banana"`. -/
theorem addMessage_role_unvalidated_witness :
    (0 : Int) ≤ 50 ∧
    (storeGetD (addMessage 50 [] "c1" "banana" "x" "t0") "c1").getLast?
      = some ⟨"banana", "x", "t0"⟩ :=
  ⟨by decide, addMessage_role_unvalidated 50 (by decide) [] "c1" "banana" "x" "t0"⟩

end Context7
